import Mathlib

/-!
Shallow embedding of `src/scripts/count-lines.py` (a line counter with
per-project exclusion rules) and verification of its specification.

A filesystem path is modelled as the list of its segments (the path is
absolute, so `["home", "dev", "a.txt"]` stands for `/home/dev/a.txt`).
Python's `str(path)` is modelled by joining the segments with `/`;
`Path.suffix`, `Path.name`, and `Path.relative_to` are modelled from
pathlib's documented behaviour (`relative_to` raises `ValueError` when the
argument is not an ancestor, modelled by `Option`).
-/

/-- A filesystem path, as its list of segments (absolute, POSIX-style). -/
abbrev FsPath := List String

/-- Characters of `str(path)`: each segment preceded by the separator. -/
def pathChars : FsPath → List Char
  | [] => []
  | s :: rest => '/' :: (s.data ++ pathChars rest)

/-- Lowercased characters of `str(path)`, modelling `str(file_path).lower()`. -/
def lowerPathChars (p : FsPath) : List Char :=
  (pathChars p).map Char.toLower

/-- Does `needle` occur at the start of `hay`? -/
def startsWithChars : List Char → List Char → Bool
  | [], _ => true
  | _ :: _, [] => false
  | a :: as, b :: bs => a == b && startsWithChars as bs

/-- Substring containment on character lists, modelling Python's `in`. -/
def hasSub (needle : List Char) : List Char → Bool
  | [] => needle.isEmpty
  | c :: t => startsWithChars needle (c :: t) || hasSub needle t

/-- Model of `'log' in str(file_path).lower()`. -/
def containsLog (p : FsPath) : Bool :=
  hasSub ['l', 'o', 'g'] (lowerPathChars p)

/-- Model of `Path.name`: the final segment (empty for the root). -/
def pathName (p : FsPath) : String :=
  p.getLastD ""

/-- Model of `Path.suffix` on a file name: the part from the last dot,
provided that dot is neither the first nor the last character. -/
def nameSuffix (name : String) : String :=
  let rev := name.data.reverse
  let ext := rev.takeWhile (fun c => c ≠ '.')
  let rest := rev.dropWhile (fun c => c ≠ '.')
  if rest.isEmpty then ""
  else if rest.length == 1 then ""
  else if ext.isEmpty then ""
  else String.mk ('.' :: ext.reverse)

/-- Model of `Path.suffix` of a path. -/
def pathSuffix (p : FsPath) : String :=
  nameSuffix (pathName p)

/-- Strip `base` from the front of `p`, segmentwise. -/
def segsUnder : List String → List String → Option (List String)
  | [], p => some p
  | _ :: _, [] => none
  | b :: bs, x :: xs => if b == x then segsUnder bs xs else none

/-- Model of `p.relative_to(base)`: `some` of the remaining segments when
`base` is an ancestor-or-self of `p`, `none` for pathlib's `ValueError`. -/
def relativeTo (p base : FsPath) : Option (List String) :=
  segsUnder base p

/-- Model of lines 38-44 of `should_exclude`: the project name seen from the
dev root, falling back to the first segment of `parts` when the file lies
outside the dev root (`rel_to_dev.parts[0] if len(...) > 0 else None`). -/
def projectOf (file_path dev_root : FsPath) (parts : List String) : Option String :=
  match relativeTo file_path dev_root with
  | some rel => rel.head?
  | none => parts.head?

/-- Model of the project-specific rule chain (lines 47-99 of
`src/scripts/count-lines.py`): `true` means the file is excluded. -/
def projectRule (project : String) (file_path : FsPath) (parts : List String) : Bool :=
  let nm := pathName file_path
  if project == "alohomora" then
    !(nm == "common.go" || nm == "alohomora.go")
  else if project == "e911" then
    true
  else if project == "meraki-api" then
    parts.contains "backups" || parts.contains "logs" || parts.contains "config"
  else if project == "misc-scripts" then
    nm == "30001_KEVLAR_61F.conf" || startsWithChars "hpp3".data nm.data ||
      nm == "vpn_config_output.xlsx"
  else if project == "defender" then
    pathSuffix file_path == ".csv"
  else if project == "powershell-console" then
    nm == "npm-packages.json" || hasSub ['b','a','c','k','u','p'] (nm.data.map Char.toLower) ||
      parts.contains "_prod"
  else
    false

/-- The project names carrying a rule in the static rule table. -/
def ruleTableNames : List String :=
  ["alohomora", "e911", "meraki-api", "misc-scripts", "defender", "powershell-console"]

/-- Model of `should_exclude(file_path, base_path, dev_root)`.  `none` models
the `ValueError` raised by `file_path.relative_to(base_path)` on line 27 when
`file_path` is not under `base_path`; otherwise `some b` with `b = true`
meaning the file is excluded.  Mirrors the source order: relative_to first,
then the global `log` test, then the `.vsix` test, then the project rules
(`if project:` treats both `None` and the empty string as "no project"). -/
def should_exclude (file_path base_path dev_root : FsPath) : Option Bool :=
  match relativeTo file_path base_path with
  | none => none
  | some parts =>
    if containsLog file_path || pathSuffix file_path == ".log" then some true
    else if pathSuffix file_path == ".vsix" then some true
    else
      match projectOf file_path dev_root parts with
      | none => some false
      | some project =>
        if project == "" then some false
        else some (projectRule project file_path parts)

/-- Outcome of one `open(file_path, 'r', encoding=e)` + read attempt:
success with a line count, a `UnicodeDecodeError`/`PermissionError` (the
loop continues with the next encoding), or any other exception (the
function returns 0 at once). -/
inductive AttemptResult where
  | success (lines : Nat)
  | recoverable
  | fatal
deriving DecidableEq

/-- A regular file of the modelled filesystem: its name and, for each
encoding string, what opening and reading it with that encoding does. -/
structure FileEntry where
  name : String
  attempt : String → AttemptResult

/-- The fixed encoding list of `count_lines_in_file`. -/
def encodings : List String := ["utf-8", "latin-1", "cp1252"]

/-- The `for encoding in encodings` loop body of `count_lines_in_file`. -/
def tryEncodings (attempt : String → AttemptResult) : List String → Nat
  | [] => 0
  | e :: es =>
    match attempt e with
    | .success n => n
    | .recoverable => tryEncodings attempt es
    | .fatal => 0

/-- Model of `count_lines_in_file`: try the encodings in order; a success
returns its line count, a recoverable error moves on, any other error and
exhaustion of the list return 0. -/
def count_lines_in_file (attempt : String → AttemptResult) : Nat :=
  tryEncodings attempt encodings

mutual
/-- A directory tree: the regular files directly inside, and the named
subdirectories. -/
inductive FTree where
  | node (files : List FileEntry) (dirs : Forest)

/-- A list of named subdirectories, in directory-listing order. -/
inductive Forest where
  | nil
  | cons (name : String) (t : FTree) (rest : Forest)
end

/-- Model of the pruning on line 134: descend into a directory unless its
name starts with `.` or is `node_modules`. -/
def keepDir (d : String) : Bool :=
  !(startsWithChars ['.'] d.data) && d != "node_modules"

mutual
/-- Model of `os.walk(base_path)` restricted to the files it yields: the
sequence of (directory path relative to the walk root, file entry) pairs, in
walk order (the files of a directory first, then its kept subdirectories in
order, depth-first).  `os.walk` only ever yields roots of the form
`base_path/...`, which the relative first component records. -/
def walkTree (rel : List String) : FTree → List (List String × FileEntry)
  | .node files dirs => files.map (fun f => (rel, f)) ++ walkForest rel dirs

/-- Walk the subdirectories in order, skipping pruned ones. -/
def walkForest (rel : List String) : Forest → List (List String × FileEntry)
  | .nil => []
  | .cons d sub rest =>
    (if keepDir d then walkTree (rel ++ [d]) sub else []) ++ walkForest rel rest
end

/-- Per-project counters, the value type of `project_stats`. -/
structure Stats where
  files : Nat
  lines : Nat
deriving DecidableEq

/-- The mutable state of `count_project_lines`: the `defaultdict` of
per-project counters (as an association list in insertion order, the
iteration order of a Python dict) and the three global counters. -/
structure AggState where
  project_stats : List (String × Stats)
  total_files : Nat
  total_lines : Nat
  excluded_files : Nat
deriving DecidableEq

/-- The state at the start of `count_project_lines`. -/
def initState : AggState :=
  { project_stats := [], total_files := 0, total_lines := 0, excluded_files := 0 }

/-- Model of `project_stats[project]['files'] += 1` and
`project_stats[project]['lines'] += lines` on a `defaultdict`: update the
existing entry, or append a fresh one (insertion order preserved). -/
def bumpProject (ps : List (String × Stats)) (project : String) (lines : Nat) :
    List (String × Stats) :=
  match ps with
  | [] => [(project, { files := 1, lines := lines })]
  | (p, s) :: rest =>
    if p == project then (p, { files := s.files + 1, lines := s.lines + lines }) :: rest
    else (p, s) :: bumpProject rest project lines

/-- First-match association lookup in `project_stats`. -/
def findStats (ps : List (String × Stats)) (k : String) : Option Stats :=
  match ps with
  | [] => none
  | (p, s) :: rest => if p == k then some s else findStats rest k

/-- Model of the per-file body of the walk loop (lines 142-163).  The file's
absolute path is `base ++ rel ++ [name]` since `os.walk` yields roots under
`base_path`.  `should_exclude` is called outside any `try`, so its
`ValueError` would propagate (`.error`); the second `relative_to` sits inside
`try/except: continue`, so its failure skips the file. -/
def processFile (base dev_root : FsPath) (st : AggState) (e : List String × FileEntry) :
    Except Unit AggState :=
  let fp : FsPath := base ++ e.1 ++ [e.2.name]
  match should_exclude fp base dev_root with
  | none => .error ()
  | some true => .ok { st with excluded_files := st.excluded_files + 1 }
  | some false =>
    match relativeTo fp base with
    | none => .ok st
    | some parts =>
      let project := (parts.head?).getD "root"
      let lines := count_lines_in_file e.2.attempt
      .ok { st with
        project_stats := bumpProject st.project_stats project lines
        total_files := st.total_files + 1
        total_lines := st.total_lines + lines }

/-- Run the walk loop over the yielded file sequence. -/
def runWalk (base dev_root : FsPath) : List (List String × FileEntry) → AggState →
    Except Unit AggState
  | [], st => .ok st
  | e :: es, st =>
    match processFile base dev_root st e with
    | .error x => .error x
    | .ok st' => runWalk base dev_root es st'

/-- Model of the counting phase of `count_project_lines(base_path, dev_root)`
on the filesystem `t` rooted at `base_path`: `dev_root = None` defaults to
`base_path` (lines 122-123), then the walk loop accumulates the counters. -/
def count_project_lines (base : FsPath) (dev_root : Option FsPath) (t : FTree) :
    Except Unit AggState :=
  runWalk base (dev_root.getD base) (walkTree [] t) initState

/-- Stable insertion (descending by line count) used to model Python's
stable `sorted(..., key=lambda x: x[1]['lines'], reverse=True)`: an element
is placed before the first element whose line count does not exceed it, so
elements with equal line counts keep their original relative order. -/
def insertDesc (x : String × Stats) : List (String × Stats) → List (String × Stats)
  | [] => [x]
  | y :: ys => if y.2.lines ≤ x.2.lines then x :: y :: ys else y :: insertDesc x ys

/-- Model of `sorted(project_stats.items(), key=..., reverse=True)` (lines
173-175): a stable sort by descending line count. -/
def sortByLinesDesc : List (String × Stats) → List (String × Stats)
  | [] => []
  | x :: xs => insertDesc x (sortByLinesDesc xs)

/-- The report rows printed by lines 177-178, in order: the accumulated
project stats sorted by descending line count (`none` when the walk raised). -/
def reportRows (base : FsPath) (dev_root : Option FsPath) (t : FTree) :
    Option (List (String × Stats)) :=
  match count_project_lines base dev_root t with
  | .ok st => some (sortByLinesDesc st.project_stats)
  | .error _ => none

/-- What the PATH command-line argument resolves to on the modelled
filesystem: a regular file (with its read behaviour), a directory (with its
tree), or a missing path. -/
inductive PathKind where
  | file (attempt : String → AttemptResult)
  | dir (tree : FTree)
  | missing

/-- Observable outcome of one invocation of the `__main__` block: the exit
code, the line count printed by the single-file branch (if taken), and the
state accumulated by `count_project_lines` (if it ran). -/
structure MainResult where
  exit_code : Nat
  single_file_lines : Option Nat
  aggregated : Option AggState

/-- Model of the `__main__` block (lines 235-286): load `devRoot` from the
config (`none` = missing/malformed config, exit 1); if a PATH argument was
given, exit 1 when it does not exist, print just the line count and exit 0
when it is a regular file, otherwise aggregate over it; with no PATH
argument aggregate over the dev root (`devTree` is the dev root's tree).
The `--show-exclusions` flag only changes printing, not any counter, and is
omitted.  An exception escaping `count_project_lines` would end the process
with a nonzero status. -/
def mainRun (conf : Option FsPath) (devTree : FTree) (target : Option (FsPath × PathKind)) :
    MainResult :=
  match conf with
  | none => { exit_code := 1, single_file_lines := none, aggregated := none }
  | some dev_root =>
    match target with
    | some (_, .missing) => { exit_code := 1, single_file_lines := none, aggregated := none }
    | some (_, .file attempt) =>
      { exit_code := 0, single_file_lines := some (count_lines_in_file attempt),
        aggregated := none }
    | some (p, .dir t) =>
      match count_project_lines p (some dev_root) t with
      | .ok st => { exit_code := 0, single_file_lines := none, aggregated := some st }
      | .error _ => { exit_code := 1, single_file_lines := none, aggregated := none }
    | none =>
      match count_project_lines dev_root (some dev_root) devTree with
      | .ok st => { exit_code := 0, single_file_lines := none, aggregated := some st }
      | .error _ => { exit_code := 1, single_file_lines := none, aggregated := none }

/-- Sum of the per-project file counters, the left side of
`sum(project.fileCount) == totalFiles`. -/
def sumFiles (ps : List (String × Stats)) : Nat :=
  (ps.map fun e => e.2.files).sum

/-- Sum of the per-project line counters. -/
def sumLines (ps : List (String × Stats)) : Nat :=
  (ps.map fun e => e.2.lines).sum

/-- The report row order relation: earlier rows have at least the line count
of later rows (descending). -/
def descRel (a b : String × Stats) : Prop :=
  b.2.lines ≤ a.2.lines

/-- A small concrete filesystem used to instantiate proved theorems: one
file directly in the scanned root, a project directory with a text file and
a log file, and a hidden directory that the walk prunes. -/
def sampleTree : FTree :=
  .node [⟨"a.txt", fun _ => .success 3⟩]
    (.cons "projA"
      (.node [⟨"b.txt", fun _ => .success 5⟩, ⟨"c.log", fun _ => .success 9⟩] .nil)
      (.cons ".git" (.node [⟨"hidden.txt", fun _ => .success 7⟩] .nil) .nil))

/-! ## Helper lemmas -/

theorem segsUnder_append (base r : List String) : segsUnder base (base ++ r) = some r := by
  induction base with
  | nil => rfl
  | cons b bs ih => simpa [segsUnder] using ih

theorem relativeTo_append (base r : FsPath) : relativeTo (base ++ r) base = some r :=
  segsUnder_append base r

theorem startsWithChars_append (n h b : List Char) (hs : startsWithChars n h = true) :
    startsWithChars n (h ++ b) = true := by
  induction n generalizing h with
  | nil => rfl
  | cons a as ih =>
    cases h with
    | nil => simp [startsWithChars] at hs
    | cons c cs =>
      simp only [startsWithChars, Bool.and_eq_true] at hs
      simp only [List.cons_append, startsWithChars, Bool.and_eq_true]
      exact ⟨hs.1, ih cs hs.2⟩

theorem hasSub_nil_needle (l : List Char) : hasSub [] l = true := by
  cases l with
  | nil => rfl
  | cons c t => simp [hasSub, startsWithChars]

theorem hasSub_append_right (n a b : List Char) (h : hasSub n a = true) :
    hasSub n (a ++ b) = true := by
  induction a with
  | nil =>
    have : n = [] := by
      simpa [hasSub, List.isEmpty_iff] using h
    subst this
    exact hasSub_nil_needle b
  | cons c t ih =>
    simp only [hasSub, Bool.or_eq_true] at h
    simp only [List.cons_append, hasSub, Bool.or_eq_true]
    rcases h with h | h
    · exact Or.inl (startsWithChars_append n (c :: t) b h)
    · exact Or.inr (ih h)

theorem pathChars_append (p q : FsPath) : pathChars (p ++ q) = pathChars p ++ pathChars q := by
  induction p with
  | nil => rfl
  | cons s rest ih => simp [pathChars, ih]

theorem containsLog_append (p q : FsPath) (h : containsLog p = true) :
    containsLog (p ++ q) = true := by
  unfold containsLog lowerPathChars at h ⊢
  rw [pathChars_append, List.map_append]
  exact hasSub_append_right _ _ _ h

theorem should_exclude_isSome (base r devr : FsPath) :
    (should_exclude (base ++ r) base devr).isSome = true := by
  simp only [should_exclude, relativeTo_append]
  split
  · rfl
  · split
    · rfl
    · cases hp : projectOf (base ++ r) devr r with
      | none => rfl
      | some p => split <;> first | rfl | (split <;> rfl)

theorem should_exclude_log (base r devr : FsPath) (h : containsLog base = true) :
    should_exclude (base ++ r) base devr = some true := by
  unfold should_exclude
  rw [relativeTo_append]
  have hc : containsLog (base ++ r) = true := containsLog_append base r h
  simp [hc]

theorem processFile_none (base devr : FsPath) (st : AggState) (rel : List String)
    (f : FileEntry) (h : should_exclude (base ++ rel ++ [f.name]) base devr = none) :
    processFile base devr st (rel, f) = .error () := by
  simp only [processFile, h]

theorem processFile_excluded (base devr : FsPath) (st : AggState) (rel : List String)
    (f : FileEntry) (h : should_exclude (base ++ rel ++ [f.name]) base devr = some true) :
    processFile base devr st (rel, f) =
      .ok { st with excluded_files := st.excluded_files + 1 } := by
  simp only [processFile, h]

theorem processFile_included (base devr : FsPath) (st : AggState) (rel : List String)
    (f : FileEntry) (h : should_exclude (base ++ rel ++ [f.name]) base devr = some false) :
    processFile base devr st (rel, f) =
      .ok { st with
        project_stats := bumpProject st.project_stats
          (((rel ++ [f.name]).head?).getD "root") (count_lines_in_file f.attempt)
        total_files := st.total_files + 1
        total_lines := st.total_lines + count_lines_in_file f.attempt } := by
  have h' : should_exclude (base ++ (rel ++ [f.name])) base devr = some false := by
    rw [← List.append_assoc]; exact h
  simp only [processFile, List.append_assoc, h', relativeTo_append]

theorem processFile_classify (base devr : FsPath) (st : AggState)
    (e : List String × FileEntry) :
    ∃ st', processFile base devr st e = .ok st' ∧
      st'.excluded_files + st'.total_files = st.excluded_files + st.total_files + 1 ∧
      ((st'.total_files = st.total_files + 1 ∧ st'.excluded_files = st.excluded_files ∧
          st'.project_stats = bumpProject st.project_stats
            (((e.1 ++ [e.2.name]).head?).getD "root") (count_lines_in_file e.2.attempt) ∧
          st'.total_lines = st.total_lines + count_lines_in_file e.2.attempt) ∨
        (st'.total_files = st.total_files ∧ st'.excluded_files = st.excluded_files + 1 ∧
          st'.project_stats = st.project_stats ∧ st'.total_lines = st.total_lines)) := by
  obtain ⟨rel, f⟩ := e
  have hsome := should_exclude_isSome base (rel ++ [f.name]) devr
  rw [← List.append_assoc] at hsome
  cases hse : should_exclude (base ++ rel ++ [f.name]) base devr with
  | none => rw [hse] at hsome; simp at hsome
  | some b =>
    cases b with
    | true =>
      refine ⟨_, processFile_excluded base devr st rel f hse, ?_, Or.inr ?_⟩ <;> simp <;> omega
    | false =>
      refine ⟨_, processFile_included base devr st rel f hse, ?_, Or.inl ?_⟩ <;> simp <;> omega

theorem runWalk_ok (base devr : FsPath) (es : List (List String × FileEntry)) :
    ∀ st : AggState, ∃ st', runWalk base devr es st = .ok st' := by
  induction es with
  | nil => intro st; exact ⟨st, rfl⟩
  | cons e es ih =>
    intro st
    obtain ⟨st₁, h₁, -⟩ := processFile_classify base devr st e
    obtain ⟨st', h'⟩ := ih st₁
    exact ⟨st', by simp only [runWalk, h₁, h']⟩

theorem runWalk_count (base devr : FsPath) (es : List (List String × FileEntry)) :
    ∀ st st' : AggState, runWalk base devr es st = .ok st' →
      st'.excluded_files + st'.total_files = st.excluded_files + st.total_files + es.length := by
  induction es with
  | nil =>
    intro st st' h
    simp only [runWalk] at h
    cases h
    simp
  | cons e es ih =>
    intro st st' h
    obtain ⟨st₁, h₁, hc, -⟩ := processFile_classify base devr st e
    simp only [runWalk, h₁] at h
    have := ih st₁ st' h
    simp only [List.length_cons]
    omega

theorem sumFiles_cons (p : String) (s : Stats) (tl : List (String × Stats)) :
    sumFiles ((p, s) :: tl) = s.files + sumFiles tl := rfl

theorem sumLines_cons (p : String) (s : Stats) (tl : List (String × Stats)) :
    sumLines ((p, s) :: tl) = s.lines + sumLines tl := rfl

theorem sumFiles_bump (ps : List (String × Stats)) (k : String) (l : Nat) :
    sumFiles (bumpProject ps k l) = sumFiles ps + 1 := by
  induction ps with
  | nil => rfl
  | cons hd tl ih =>
    obtain ⟨p, s⟩ := hd
    by_cases hpk : p = k
    · simp [bumpProject, hpk, sumFiles_cons]
      omega
    · have : (p == k) = false := by simpa using hpk
      simp [bumpProject, this, sumFiles_cons, ih]
      omega

theorem sumLines_bump (ps : List (String × Stats)) (k : String) (l : Nat) :
    sumLines (bumpProject ps k l) = sumLines ps + l := by
  induction ps with
  | nil => simp [bumpProject, sumLines_cons, sumLines]
  | cons hd tl ih =>
    obtain ⟨p, s⟩ := hd
    by_cases hpk : p = k
    · simp [bumpProject, hpk, sumLines_cons]
      omega
    · have : (p == k) = false := by simpa using hpk
      simp [bumpProject, this, sumLines_cons, ih]
      omega

theorem findStats_bump_other (ps : List (String × Stats)) (k : String) (l : Nat)
    (k' : String) (h : k' ≠ k) :
    findStats (bumpProject ps k l) k' = findStats ps k' := by
  have hkk : (k == k') = false := by simpa using (Ne.symm h)
  induction ps with
  | nil => simp [bumpProject, findStats, hkk]
  | cons hd tl ih =>
    obtain ⟨p, s⟩ := hd
    by_cases hpk : p = k
    · subst hpk
      simp [bumpProject, findStats, hkk]
    · have hb : (p == k) = false := by simpa using hpk
      by_cases hpk' : p = k'
      · subst hpk'
        simp [bumpProject, findStats, hb]
      · have hb' : (p == k') = false := by simpa using hpk'
        simp [bumpProject, findStats, hb, hb', ih]

theorem findStats_bump_self (ps : List (String × Stats)) (k : String) (l : Nat) :
    findStats (bumpProject ps k l) k =
      some { files := ((findStats ps k).getD ⟨0, 0⟩).files + 1,
             lines := ((findStats ps k).getD ⟨0, 0⟩).lines + l } := by
  induction ps with
  | nil => simp [bumpProject, findStats]
  | cons hd tl ih =>
    obtain ⟨p, s⟩ := hd
    by_cases hpk : p = k
    · subst hpk
      simp [bumpProject, findStats]
    · have hb : (p == k) = false := by simpa using hpk
      simp [bumpProject, findStats, hb, ih]

theorem runWalk_sums (base devr : FsPath) (es : List (List String × FileEntry)) :
    ∀ st st' : AggState, runWalk base devr es st = .ok st' →
      sumFiles st.project_stats = st.total_files →
      sumLines st.project_stats = st.total_lines →
      sumFiles st'.project_stats = st'.total_files ∧
        sumLines st'.project_stats = st'.total_lines := by
  induction es with
  | nil =>
    intro st st' h hf hl
    simp only [runWalk] at h
    cases h
    exact ⟨hf, hl⟩
  | cons e es ih =>
    intro st st' h hf hl
    obtain ⟨st₁, h₁, -, hcase⟩ := processFile_classify base devr st e
    simp only [runWalk, h₁] at h
    rcases hcase with ⟨htf, -, hps, htl⟩ | ⟨htf, -, hps, htl⟩
    · refine ih st₁ st' h ?_ ?_
      · rw [hps, sumFiles_bump, hf, htf]
      · rw [hps, sumLines_bump, hl, htl]
    · refine ih st₁ st' h ?_ ?_
      · rw [hps, hf, htf]
      · rw [hps, hl, htl]

theorem runWalk_all_excluded (base devr : FsPath) (hbase : containsLog base = true)
    (es : List (List String × FileEntry)) :
    ∀ st : AggState,
      runWalk base devr es st =
        .ok { st with excluded_files := st.excluded_files + es.length } := by
  induction es with
  | nil => intro st; simp [runWalk]
  | cons e es ih =>
    intro st
    obtain ⟨rel, f⟩ := e
    have hse : should_exclude (base ++ rel ++ [f.name]) base devr = some true := by
      rw [List.append_assoc]
      exact should_exclude_log base (rel ++ [f.name]) devr hbase
    rw [runWalk, processFile_excluded base devr st rel f hse]
    dsimp only
    rw [ih]
    have harith : st.excluded_files + 1 + es.length = st.excluded_files + (es.length + 1) := by
      omega
    simp [List.length_cons, harith]

theorem tryEncodings_no_success (attempt : String → AttemptResult) (es : List String)
    (h : ∀ e ∈ es, ∀ n, attempt e ≠ .success n) :
    tryEncodings attempt es = 0 := by
  induction es with
  | nil => rfl
  | cons e es ih =>
    cases hae : attempt e with
    | success n => exact absurd hae (h e (List.mem_cons_self e es) n)
    | recoverable =>
      simp only [tryEncodings, hae]
      exact ih fun e' he' n => h e' (List.mem_cons_of_mem e he') n
    | fatal => simp only [tryEncodings, hae]

theorem projectRule_default (p : String) (fp : FsPath) (parts : List String)
    (h : p ∉ ruleTableNames) : projectRule p fp parts = false := by
  simp only [ruleTableNames, List.mem_cons, List.not_mem_nil, or_false, not_or] at h
  obtain ⟨h1, h2, h3, h4, h5, h6⟩ := h
  simp [projectRule, h1, h2, h3, h4, h5, h6]

theorem mem_insertDesc (x y : String × Stats) (l : List (String × Stats)) :
    y ∈ insertDesc x l ↔ y = x ∨ y ∈ l := by
  induction l with
  | nil => simp [insertDesc]
  | cons z zs ih =>
    by_cases hle : z.2.lines ≤ x.2.lines
    · simp [insertDesc, hle]
    · simp [insertDesc, hle, ih]
      tauto

theorem pairwise_insertDesc (x : String × Stats) (l : List (String × Stats))
    (h : l.Pairwise descRel) : (insertDesc x l).Pairwise descRel := by
  induction l with
  | nil => simp [insertDesc]
  | cons y ys ih =>
    rw [List.pairwise_cons] at h
    by_cases hle : y.2.lines ≤ x.2.lines
    · simp only [insertDesc, if_pos hle]
      rw [List.pairwise_cons]
      refine ⟨?_, List.pairwise_cons.mpr h⟩
      intro z hz
      rcases List.mem_cons.mp hz with hz | hz
      · subst hz; exact hle
      · exact le_trans (h.1 z hz) hle
    · simp only [insertDesc, if_neg hle]
      rw [List.pairwise_cons]
      refine ⟨?_, ih h.2⟩
      intro z hz
      rcases (mem_insertDesc x z ys).mp hz with hz | hz
      · subst hz
        exact le_of_lt (Nat.lt_of_not_le hle)
      · exact h.1 z hz

theorem sortByLinesDesc_pairwise (l : List (String × Stats)) :
    (sortByLinesDesc l).Pairwise descRel := by
  induction l with
  | nil => simp [sortByLinesDesc]
  | cons x xs ih => exact pairwise_insertDesc x (sortByLinesDesc xs) ih

theorem filter_insertDesc (x : String × Stats) (l : List (String × Stats)) (n : Nat)
    (h : l.Pairwise descRel) :
    (insertDesc x l).filter (fun e => e.2.lines == n) =
      if x.2.lines == n then x :: l.filter (fun e => e.2.lines == n)
      else l.filter (fun e => e.2.lines == n) := by
  induction l with
  | nil =>
    by_cases hn : x.2.lines = n
    · simp [insertDesc, List.filter, hn]
    · have : (x.2.lines == n) = false := by simpa using hn
      simp [insertDesc, List.filter, this]
  | cons y ys ih =>
    rw [List.pairwise_cons] at h
    by_cases hle : y.2.lines ≤ x.2.lines
    · simp only [insertDesc, if_pos hle, List.filter]
      by_cases hn : x.2.lines = n
      · have hb : (x.2.lines == n) = true := by simpa using hn
        simp [hb, List.filter]
      · have hb : (x.2.lines == n) = false := by simpa using hn
        simp [hb, List.filter]
    · have hxy : x.2.lines < y.2.lines := Nat.lt_of_not_le hle
      simp only [insertDesc, if_neg hle]
      by_cases hn : x.2.lines = n
      · have hb : (x.2.lines == n) = true := by simpa using hn
        have hyn : (y.2.lines == n) = false := by
          have : y.2.lines ≠ n := by omega
          simpa using this
        simp only [List.filter, hyn, ih h.2, hb, if_pos rfl, if_true]
      · have hb : (x.2.lines == n) = false := by simpa using hn
        simp only [List.filter, ih h.2, hb, if_neg, if_false]
        cases hyn : (y.2.lines == n) <;> simp

theorem relativeTo_eq_some (fp base : FsPath) (parts : List String)
    (h : relativeTo fp base = some parts) : fp = base ++ parts := by
  induction base generalizing fp with
  | nil =>
    simp only [relativeTo, segsUnder, Option.some.injEq] at h
    simpa using h
  | cons b bs ih =>
    cases fp with
    | nil => simp [relativeTo, segsUnder] at h
    | cons x xs =>
      simp only [relativeTo, segsUnder] at h
      cases hbx : (b == x) with
      | false => simp [hbx] at h
      | true =>
        rw [hbx] at h
        simp only [if_true] at h
        have hx : b = x := by simpa using hbx
        subst hx
        have := ih xs h
        simp [this]

/-! ## Claim theorems -/

/-- C1: after a full traversal by `count_project_lines`, the sum over all
projects of the per-project file counters equals the global `total_files`
counter and the sum of the per-project line counters equals the global
`total_lines` counter; moreover each included file's bump adds exactly
(1 file, its line count) to exactly one project's counters, leaving every
other project's entry unchanged. -/
theorem c1_project_sums_match_totals (base : FsPath) (devr : Option FsPath) (t : FTree)
    (st : AggState) (h : count_project_lines base devr t = .ok st) :
    (sumFiles st.project_stats = st.total_files ∧
      sumLines st.project_stats = st.total_lines) ∧
    (∀ (ps : List (String × Stats)) (k : String) (l : Nat),
      sumFiles (bumpProject ps k l) = sumFiles ps + 1 ∧
      sumLines (bumpProject ps k l) = sumLines ps + l ∧
      ∀ k', k' ≠ k → findStats (bumpProject ps k l) k' = findStats ps k') := by
  unfold count_project_lines at h
  have hs := runWalk_sums base (devr.getD base) (walkTree [] t) initState st h rfl rfl
  exact ⟨hs, fun ps k l =>
    ⟨sumFiles_bump ps k l, sumLines_bump ps k l,
      fun k' hk => findStats_bump_other ps k l k' hk⟩⟩

/-- C1 witness: the theorem applied to a concrete run over `sampleTree`. -/
theorem c1_project_sums_match_totals_witness :
    count_project_lines ["base"] none sampleTree =
      .ok { project_stats := [("a.txt", ⟨1, 3⟩), ("projA", ⟨1, 5⟩)],
            total_files := 2, total_lines := 8, excluded_files := 1 } ∧
    sumFiles [("a.txt", ⟨1, 3⟩), ("projA", ⟨1, 5⟩)] = 2 ∧
    sumLines [("a.txt", ⟨1, 3⟩), ("projA", ⟨1, 5⟩)] = 8 := by
  have h : count_project_lines ["base"] none sampleTree =
      .ok { project_stats := [("a.txt", ⟨1, 3⟩), ("projA", ⟨1, 5⟩)],
            total_files := 2, total_lines := 8, excluded_files := 1 } := by
    simp only [count_project_lines, sampleTree, walkTree, walkForest]
    rfl
  exact ⟨h, (c1_project_sums_match_totals ["base"] none sampleTree _ h).1.1,
    (c1_project_sums_match_totals ["base"] none sampleTree _ h).1.2⟩

/-- C2: a file under `base_path` whose path string contains `log`
case-insensitively, or whose suffix is `.log`, is excluded by
`should_exclude` no matter which project it belongs to (the project rules
are never consulted). -/
theorem c2_global_log_always_excluded (fp base devr : FsPath) (parts : List String)
    (hrel : relativeTo fp base = some parts)
    (h : containsLog fp = true ∨ pathSuffix fp = ".log") :
    should_exclude fp base devr = some true := by
  simp only [should_exclude, hrel]
  have hcond : (containsLog fp || pathSuffix fp == ".log") = true := by
    rcases h with h | h
    · simp [h]
    · simp [h]
  simp [hcond]

/-- C2 witness: the theorem applied to the concrete file `/dev/p/x.log`. -/
theorem c2_global_log_always_excluded_witness :
    relativeTo ["dev", "p", "x.log"] ["dev"] = some ["p", "x.log"] ∧
    pathSuffix ["dev", "p", "x.log"] = ".log" ∧
    should_exclude ["dev", "p", "x.log"] ["dev"] ["dev"] = some true :=
  ⟨by decide, by decide,
    c2_global_log_always_excluded ["dev", "p", "x.log"] ["dev"] ["dev"] ["p", "x.log"]
      (by decide) (Or.inr (by decide))⟩

/-- C8: when the PATH argument resolves to a regular file, the run prints
exactly that file's line count and exits 0, and `count_project_lines` is
never invoked (no aggregation state is ever produced). -/
theorem c8_single_file_prints_count_only (dev_root : FsPath) (devTree : FTree) (p : FsPath)
    (attempt : String → AttemptResult) :
    mainRun (some dev_root) devTree (some (p, .file attempt)) =
      { exit_code := 0, single_file_lines := some (count_lines_in_file attempt),
        aggregated := none } := rfl

/-- C10: an included regular file lying directly in `base_path` is recorded
under its own file name (it forms its own single-file project), and for every
file the walk produces the relative path is nonempty, so the `'root'`
fallback of `rel_path.parts[0] if len(rel_path.parts) > 0 else 'root'` is
never taken. -/
theorem c10_root_file_keyed_by_own_name (base devr : FsPath) (st : AggState) (f : FileEntry)
    (h : should_exclude (base ++ [f.name]) base devr = some false) :
    processFile base devr st ([], f) =
      .ok { st with
        project_stats := bumpProject st.project_stats f.name (count_lines_in_file f.attempt)
        total_files := st.total_files + 1
        total_lines := st.total_lines + count_lines_in_file f.attempt } ∧
    (∀ (rel : List String) (nm : String),
      relativeTo (base ++ (rel ++ [nm])) base = some (rel ++ [nm]) ∧ rel ++ [nm] ≠ []) := by
  constructor
  · have h' : should_exclude (base ++ [] ++ [f.name]) base devr = some false := by
      rw [List.append_nil]
      exact h
    rw [processFile_included base devr st [] f h']
    rfl
  · intro rel nm
    exact ⟨relativeTo_append base (rel ++ [nm]), by simp⟩

/-- C10 witness: a file directly in the scanned root is keyed by its name. -/
theorem c10_root_file_keyed_by_own_name_witness :
    should_exclude (["b"] ++ ["a.txt"]) ["b"] ["b"] = some false ∧
    processFile ["b"] ["b"] initState ([], ⟨"a.txt", fun _ => .success 2⟩) =
      .ok { project_stats := [("a.txt", ⟨1, 2⟩)], total_files := 1, total_lines := 2,
            excluded_files := 0 } := by
  have h : should_exclude (["b"] ++ ["a.txt"]) ["b"] ["b"] = some false := by decide
  exact ⟨h,
    (c10_root_file_keyed_by_own_name ["b"] ["b"] initState ⟨"a.txt", fun _ => .success 2⟩ h).1⟩

/-- C4: every regular file the walk yields is classified exactly once:
summed over the traversal, `total_files + excluded_files` equals the number
of yielded files, the per-project file counters account exactly for the
included ones, and each single step increments exactly one of "one
project's counters" or the excluded counter — never both, never neither. -/
theorem c4_each_file_classified_once (base : FsPath) (devr : Option FsPath) (t : FTree)
    (st : AggState) (h : count_project_lines base devr t = .ok st) :
    st.total_files + st.excluded_files = (walkTree [] t).length ∧
    sumFiles st.project_stats = st.total_files ∧
    (∀ (st₀ : AggState) (e : List String × FileEntry), ∃ st₁,
      processFile base (devr.getD base) st₀ e = .ok st₁ ∧
      ((st₁.total_files = st₀.total_files + 1 ∧ st₁.excluded_files = st₀.excluded_files ∧
          st₁.project_stats = bumpProject st₀.project_stats
            (((e.1 ++ [e.2.name]).head?).getD "root") (count_lines_in_file e.2.attempt)) ∨
        (st₁.total_files = st₀.total_files ∧ st₁.excluded_files = st₀.excluded_files + 1 ∧
          st₁.project_stats = st₀.project_stats))) := by
  unfold count_project_lines at h
  have hc := runWalk_count base (devr.getD base) (walkTree [] t) initState st h
  have hs := runWalk_sums base (devr.getD base) (walkTree [] t) initState st h rfl rfl
  refine ⟨?_, hs.1, ?_⟩
  · simp only [initState] at hc
    omega
  · intro st₀ e
    obtain ⟨st₁, h₁, -, hcase⟩ := processFile_classify base (devr.getD base) st₀ e
    refine ⟨st₁, h₁, ?_⟩
    rcases hcase with ⟨a, b, c, -⟩ | ⟨a, b, c, -⟩
    · exact Or.inl ⟨a, b, c⟩
    · exact Or.inr ⟨a, b, c⟩

/-- C4 witness: on `sampleTree` the three yielded files split into two
included and one excluded. -/
theorem c4_each_file_classified_once_witness :
    count_project_lines ["base"] none sampleTree =
      .ok { project_stats := [("a.txt", ⟨1, 3⟩), ("projA", ⟨1, 5⟩)],
            total_files := 2, total_lines := 8, excluded_files := 1 } ∧
    (2 : Nat) + 1 = (walkTree [] sampleTree).length := by
  have h : count_project_lines ["base"] none sampleTree =
      .ok { project_stats := [("a.txt", ⟨1, 3⟩), ("projA", ⟨1, 5⟩)],
            total_files := 2, total_lines := 8, excluded_files := 1 } := by
    simp only [count_project_lines, sampleTree, walkTree, walkForest]
    rfl
  exact ⟨h, (c4_each_file_classified_once ["base"] none sampleTree _ h).1⟩

/-- C5: a file none of whose encoding attempts succeeds yields
`count_lines_in_file = 0`, and, when not excluded, the walk step still
tallies it as an included file: its project's file counter and
`total_files` go up by one, its project's line counter, `total_lines`, and
`excluded_files` are unchanged, and the step returns normally so the
traversal continues. -/
theorem c5_unreadable_included_zero (base devr : FsPath) (st : AggState) (rel : List String)
    (f : FileEntry)
    (hfail : ∀ e ∈ encodings, ∀ n, f.attempt e ≠ .success n)
    (hinc : should_exclude (base ++ rel ++ [f.name]) base devr = some false) :
    count_lines_in_file f.attempt = 0 ∧
    processFile base devr st (rel, f) =
      .ok { st with
        project_stats := bumpProject st.project_stats (((rel ++ [f.name]).head?).getD "root") 0
        total_files := st.total_files + 1 } := by
  have h0 : count_lines_in_file f.attempt = 0 :=
    tryEncodings_no_success f.attempt encodings hfail
  refine ⟨h0, ?_⟩
  rw [processFile_included base devr st rel f hinc, h0]
  simp

/-- C5 witness: a file that is unreadable under every encoding, directly in
the scanned root, is tallied as one included file with zero lines. -/
theorem c5_unreadable_included_zero_witness :
    count_lines_in_file (fun _ => .recoverable) = 0 ∧
    processFile ["b"] ["b"] initState ([], ⟨"u.bin", fun _ => .recoverable⟩) =
      .ok { project_stats := [("u.bin", ⟨1, 0⟩)], total_files := 1, total_lines := 0,
            excluded_files := 0 } := by
  have hfail : ∀ e ∈ encodings, ∀ n,
      (⟨"u.bin", fun _ => .recoverable⟩ : FileEntry).attempt e ≠ .success n := by
    intro e he n hcontra
    exact AttemptResult.noConfusion hcontra
  have hinc : should_exclude (["b"] ++ [] ++ ["u.bin"]) ["b"] ["b"] = some false := by decide
  have := c5_unreadable_included_zero ["b"] ["b"] initState []
    ⟨"u.bin", fun _ => .recoverable⟩ hfail hinc
  exact ⟨this.1, this.2⟩

/-- C9: the global `log` test sees the absolute path, ancestors of the
scanned root included: when the base path's own string contains `log`
case-insensitively, every file under it is excluded, so the whole scan
reports zero included files, no project rows, and every yielded file in the
excluded counter. -/
theorem c9_log_base_excludes_everything (base : FsPath) (devr : Option FsPath) (t : FTree)
    (st : AggState) (hbase : containsLog base = true)
    (h : count_project_lines base devr t = .ok st) :
    (∀ (rel : List String) (nm : String) (dr : FsPath),
      should_exclude (base ++ rel ++ [nm]) base dr = some true) ∧
    st.total_files = 0 ∧ st.total_lines = 0 ∧ st.project_stats = [] ∧
    st.excluded_files = (walkTree [] t).length := by
  unfold count_project_lines at h
  rw [runWalk_all_excluded base (devr.getD base) hbase (walkTree [] t) initState] at h
  cases h
  refine ⟨?_, rfl, rfl, rfl, by simp [initState]⟩
  intro rel nm dr
  rw [List.append_assoc]
  exact should_exclude_log base (rel ++ [nm]) dr hbase

/-- C9 witness: scanning a root named `/home/blog` reports zero included
files even for an innocuous text file. -/
theorem c9_log_base_excludes_everything_witness :
    containsLog ["home", "blog"] = true ∧
    count_project_lines ["home", "blog"] none
      (.node [⟨"a.txt", fun _ => .success 1⟩] .nil) =
      .ok { project_stats := [], total_files := 0, total_lines := 0, excluded_files := 1 } ∧
    should_exclude (["home", "blog"] ++ [] ++ ["x.txt"]) ["home", "blog"] ["home", "blog"] =
      some true := by
  have hbase : containsLog ["home", "blog"] = true := by decide
  have h : count_project_lines ["home", "blog"] none
      (.node [⟨"a.txt", fun _ => .success 1⟩] .nil) =
      .ok { project_stats := [], total_files := 0, total_lines := 0, excluded_files := 1 } := by
    simp only [count_project_lines, walkTree, walkForest]
    rfl
  exact ⟨hbase, h,
    (c9_log_base_excludes_everything ["home", "blog"] none _ _ hbase h).1 [] "x.txt"
      ["home", "blog"]⟩

/-- C3 counterexample: two scans of the same two single-file projects with
equal line counts, differing only in directory order, produce report rows
in different orders — the tie order is discovery-dependent and there is no
project-name tie-break. -/
theorem c3_tie_order_depends_on_discovery :
    reportRows ["base"] none
      (.node [] (.cons "a" (.node [⟨"f.txt", fun _ => .success 2⟩] .nil)
        (.cons "b" (.node [⟨"f.txt", fun _ => .success 2⟩] .nil) .nil)))
      = some [("a", ⟨1, 2⟩), ("b", ⟨1, 2⟩)] ∧
    reportRows ["base"] none
      (.node [] (.cons "b" (.node [⟨"f.txt", fun _ => .success 2⟩] .nil)
        (.cons "a" (.node [⟨"f.txt", fun _ => .success 2⟩] .nil) .nil)))
      = some [("b", ⟨1, 2⟩), ("a", ⟨1, 2⟩)] := by
  constructor
  · simp only [reportRows, count_project_lines, walkTree, walkForest]
    rfl
  · simp only [reportRows, count_project_lines, walkTree, walkForest]
    rfl

/-- C3 amended: the report rows are sorted by descending line count, and
rows with equal line counts keep the order of the accumulated statistics
(first-encounter order of the traversal) — the sort is stable, with no
further tie-break. -/
theorem c3_rows_sorted_desc_stable (ps : List (String × Stats)) :
    (sortByLinesDesc ps).Pairwise descRel ∧
    ∀ n : Nat, (sortByLinesDesc ps).filter (fun e => e.2.lines == n) =
      ps.filter (fun e => e.2.lines == n) := by
  refine ⟨sortByLinesDesc_pairwise ps, ?_⟩
  intro n
  induction ps with
  | nil => rfl
  | cons x xs ih =>
    rw [sortByLinesDesc, filter_insertDesc x _ n (sortByLinesDesc_pairwise xs), ih,
      List.filter_cons]

/-- C6 counterexample: `should_exclude` is not total on every file path —
for a file that is not under `base_path`, `file_path.relative_to(base_path)`
on line 27 raises `ValueError` (modelled as `none`) instead of returning a
classification. -/
theorem c6_raises_outside_base :
    should_exclude ["a", "f.txt"] ["b"] ["b"] = none := by decide

/-- C6 amended: for every file path under `base_path` (all paths the
traversal ever passes), `should_exclude` returns a classification without
error, and when no global exclusion applies and the project name matches no
entry of the rule table the result is include (`some false`). -/
theorem c6_total_default_include_under_base (fp base devr : FsPath) (parts : List String)
    (hrel : relativeTo fp base = some parts) :
    (should_exclude fp base devr).isSome = true ∧
    (containsLog fp = false → pathSuffix fp ≠ ".log" → pathSuffix fp ≠ ".vsix" →
      (∀ p, projectOf fp devr parts = some p → p ∉ ruleTableNames) →
      should_exclude fp base devr = some false) := by
  constructor
  · rw [relativeTo_eq_some fp base parts hrel] at *
    exact should_exclude_isSome base parts devr
  · intro hlog hs1 hs2 hnone
    have hb1 : (pathSuffix fp == ".log") = false := by simpa using hs1
    have hb2 : (pathSuffix fp == ".vsix") = false := by simpa using hs2
    simp only [should_exclude, hrel, hlog, hb1, hb2, Bool.or_false, Bool.false_or,
      if_false, Bool.false_eq_true]
    cases hp : projectOf fp devr parts with
    | none => rfl
    | some p =>
      by_cases hpe : p = ""
      · simp [hpe]
      · have hbe : (p == "") = false := by simpa using hpe
        have hrule := projectRule_default p fp parts (hnone p hp)
        simp [hbe, hrule]

/-- C6 witness: the amended theorem applied to the concrete file
`/dev/plain/f.txt`, whose project `plain` has no rule. -/
theorem c6_total_default_include_under_base_witness :
    relativeTo ["dev", "plain", "f.txt"] ["dev"] = some ["plain", "f.txt"] ∧
    should_exclude ["dev", "plain", "f.txt"] ["dev"] ["dev"] = some false := by
  have hrel : relativeTo ["dev", "plain", "f.txt"] ["dev"] = some ["plain", "f.txt"] := by
    decide
  have hnone : ∀ p, projectOf ["dev", "plain", "f.txt"] ["dev"] ["plain", "f.txt"] = some p →
      p ∉ ruleTableNames := by
    intro p hp
    have hval : projectOf ["dev", "plain", "f.txt"] ["dev"] ["plain", "f.txt"] =
        some "plain" := by decide
    rw [hval] at hp
    cases hp
    decide
  exact ⟨hrel,
    (c6_total_default_include_under_base ["dev", "plain", "f.txt"] ["dev"] ["dev"]
      ["plain", "f.txt"] hrel).2 (by decide) (by decide) (by decide) hnone⟩

/-- C7 counterexample: a file of project `alohomora` named exactly
`common.go` is nevertheless excluded when its path contains `log` (here via
a `blog` directory), so "include if and only if the name is designated" is
false as stated. -/
theorem c7_global_rule_overrides_alohomora :
    projectOf ["dev", "alohomora", "blog", "common.go"] ["dev"]
      ["alohomora", "blog", "common.go"] = some "alohomora" ∧
    pathName ["dev", "alohomora", "blog", "common.go"] = "common.go" ∧
    should_exclude ["dev", "alohomora", "blog", "common.go"] ["dev"] ["dev"] = some true := by
  refine ⟨by decide, by decide, by decide⟩

/-- C7 amended: for a file of project `alohomora` that no global exclusion
hits (its path does not contain `log` and its suffix is neither `.log` nor
`.vsix`), `should_exclude` returns include exactly when the file name is
`common.go` or `alohomora.go`. -/
theorem c7_alohomora_include_iff (fp base devr : FsPath) (parts : List String)
    (hrel : relativeTo fp base = some parts)
    (hproj : projectOf fp devr parts = some "alohomora")
    (hlog : containsLog fp = false)
    (hs1 : pathSuffix fp ≠ ".log") (hs2 : pathSuffix fp ≠ ".vsix") :
    should_exclude fp base devr = some false ↔
      (pathName fp = "common.go" ∨ pathName fp = "alohomora.go") := by
  have hb1 : (pathSuffix fp == ".log") = false := by simpa using hs1
  have hb2 : (pathSuffix fp == ".vsix") = false := by simpa using hs2
  simp only [should_exclude, hrel, hlog, hb1, hb2, Bool.or_false, Bool.false_or,
    if_false, Bool.false_eq_true, hproj, projectRule]
  simp
  tauto

/-- C7 witness: the amended theorem applied to `/dev/alohomora/common.go`,
which is included. -/
theorem c7_alohomora_include_iff_witness :
    relativeTo ["dev", "alohomora", "common.go"] ["dev"] = some ["alohomora", "common.go"] ∧
    (should_exclude ["dev", "alohomora", "common.go"] ["dev"] ["dev"] = some false ↔
      (pathName ["dev", "alohomora", "common.go"] = "common.go" ∨
        pathName ["dev", "alohomora", "common.go"] = "alohomora.go")) :=
  ⟨by decide,
    c7_alohomora_include_iff ["dev", "alohomora", "common.go"] ["dev"] ["dev"]
      ["alohomora", "common.go"] (by decide) (by decide) (by decide) (by decide) (by decide)⟩
